import Mathlib

/-!
Verification development for the SyntaxPad editor core.

Shallow embedding of the source files `EditorLogic.py`, `CodeEditor.py`,
`Calltips.py`, `main.py` and `PythonHighlighter.py`.  Text is modelled as
`List Char`; cursor positions and selections are explicit; Qt collaborators
(`QTextCursor`, `QTextDocument.find`, `QTextDocument.characterAt`) are
modelled by their documented semantics.
-/

namespace SyntaxPad

/-! ## Python string primitives used by the sources -/

/-- Characters stripped by Python `str.strip()` / `str.rstrip()` with no
argument (the ASCII whitespace set; rarer Unicode whitespace is not
modelled). -/
def pyIsSpace (c : Char) : Bool :=
  c = ' ' || c = '\t' || c = '\n' || c = '\r' || c = '\x0b' || c = '\x0c'

/-- Python `s.lstrip(" ")`: remove leading literal space characters only. -/
def pyLstripSpaces (s : List Char) : List Char :=
  s.dropWhile (fun c => c = ' ')

/-- Python `s.rstrip()`: remove trailing whitespace. -/
def pyRstrip (s : List Char) : List Char :=
  (s.reverse.dropWhile pyIsSpace).reverse

/-- Python `s.strip()`: remove leading and trailing whitespace. -/
def pyStrip (s : List Char) : List Char :=
  (s.dropWhile pyIsSpace).reverse.dropWhile pyIsSpace |>.reverse

/-- Python `s.endswith(":")`: the last character is a colon. -/
def endsWithColon (s : List Char) : Bool :=
  s.getLast? = some ':'

/-- Split a character list at every `\n`, keeping empty pieces (helper for
`pySplitlines`). -/
def splitNl : List Char → List (List Char)
  | [] => [[]]
  | '\n' :: rest => [] :: splitNl rest
  | c :: rest =>
    match splitNl rest with
    | [] => [[c]]
    | l :: ls => (c :: l) :: ls

/-- Python `s.splitlines()` restricted to the `\n` line boundary (Python also
splits on `\r` and a few rarer boundary characters, which the docstrings
handled here do not contain).  A trailing newline produces no trailing empty
line, and the empty string yields no lines, as in Python. -/
def pySplitlines (s : List Char) : List (List Char) :=
  if s = [] then []
  else if s.getLast? = some '\n' then (splitNl s).dropLast
  else splitNl s

/-! ## EditorLogic.py -/

/-- Model of `EditorLogic.DEFAULT_INDENT`: four spaces. -/
def DEFAULT_INDENT : List Char := [' ', ' ', ' ', ' ']

/-- Model of `EditorLogic.compute_newline_with_indentation`: the text inserted for a
newline keystroke.  `indent = len(p) - len(p.lstrip(" "))` leading spaces are
copied after the line break, plus one `indent_unit` when the right-stripped
prefix ends with a colon. -/
def compute_newline_with_indentation (current_line_before_cursor indent_unit : List Char) :
    List Char :=
  let indent := current_line_before_cursor.length -
    (pyLstripSpaces current_line_before_cursor).length
  let indent_text := List.replicate indent ' '
  let extra_indent :=
    if endsWithColon (pyRstrip current_line_before_cursor) then indent_unit else []
  '\n' :: (indent_text ++ extra_indent)

/-- Model of `EditorLogic.unindent_line`: drop one leading copy of `indent_unit` when
the line starts with it, otherwise return the line unchanged. -/
def unindent_line (line indent_unit : List Char) : List Char :=
  if indent_unit.isPrefixOf line then line.drop indent_unit.length else line

/-- Spec-side measure: the number of leading literal space characters of a
line (tabs and other whitespace do not count). -/
def leadingSpaces (s : List Char) : Nat :=
  (s.takeWhile (fun c => c = ' ')).length

/-! ## CodeEditor.py: buffer and cursor model

A `QPlainTextEdit` buffer is modelled as the plain character list of its
text, together with the editor cursor's anchor and position.  A selection is
active exactly when `anchor ≠ pos`.  Qt document positions run from `0` to
`text.length` (Qt's internal document length additionally counts the final
block separator, so the maximal cursor position equals the plain text
length). -/

structure EdState where
  text : List Char
  anchor : Nat
  pos : Nat
deriving Repr, DecidableEq

/-- Model of `cursor.hasSelection()`. -/
def EdState.hasSel (st : EdState) : Bool := st.anchor ≠ st.pos

/-- Model of `QTextCursor.insertText` on the editor cursor (also models
`super().keyPressEvent` for a printable key): the selection, if any, is
replaced by `s`, and anchor and position land after the inserted text. -/
def insertTextAt (st : EdState) (s : List Char) : EdState :=
  ⟨st.text.take (min st.anchor st.pos) ++ s ++ st.text.drop (max st.anchor st.pos),
    min st.anchor st.pos + s.length, min st.anchor st.pos + s.length⟩

/-- Model of `CodeEditor.BRACKETS`: the opener-to-closer dictionary. -/
def BRACKETS : List (Char × Char) := [('(', ')'), ('[', ']'), ('{', '}')]

/-- The null `QChar()` returned by `QTextDocument.characterAt` out of range. -/
def nullQChar : Char := Char.ofNat 0

/-- Qt's paragraph-separator character standing for block boundaries inside a
`QTextDocument` (returned by `characterAt` in place of `\n`, and at the final
block separator position). -/
def qtSep : Char := Char.ofNat 0x2029

/-- Model of `QTextDocument.characterAt i` over a buffer whose plain text is `t`:
the character at index `i` (with `\n` appearing as the paragraph separator),
the final block separator at `i = t.length`, and the null character out of
range. -/
def qtCharAt (t : List Char) (i : Nat) : Char :=
  match t[i]? with
  | some c => if c = '\n' then qtSep else c
  | none => if i = t.length then qtSep else nullQChar

/-- Model of `CodeEditor.keyPressEvent`, priority 4: an opening bracket was typed.
`super().keyPressEvent(event)` inserts the typed character (replacing any
selection), the matching closer is inserted, and the cursor steps back
between the pair (`MoveOperation.PreviousCharacter`).  Calltip display is
UI-only and not modelled. -/
def typeOpenBracket (st : EdState) (c : Char) : EdState :=
  match BRACKETS.lookup c with
  | none => st
  | some closing =>
    ⟨(insertTextAt (insertTextAt st [c]) [closing]).text,
      min st.anchor st.pos + 1, min st.anchor st.pos + 1⟩

/-- Model of `CodeEditor.keyPressEvent`, priority 5: a closing bracket was typed.
With a selection, `super().keyPressEvent` replaces the selection.  Otherwise
a cursor copy attempts `NextCharacter` (which fails, leaving the position
unchanged, when already at the maximal position `t.length`) and the code
inspects `document().characterAt(copy.position() - 1)`; when that character
equals the typed closer the original cursor attempts `NextCharacter` and the
event is consumed, else the key falls through to a normal insertion. -/
def typeCloseBracket (st : EdState) (c : Char) : EdState :=
  if st.hasSel then insertTextAt st [c]
  else
    let L := st.text.length
    let probe := if st.pos < L then st.pos + 1 else st.pos
    let nextChar := if probe = 0 then nullQChar else qtCharAt st.text (probe - 1)
    if nextChar = c then
      (if st.pos < L then ⟨st.text, st.pos + 1, st.pos + 1⟩ else st)
    else insertTextAt st [c]

/-- Model of `CodeEditor.keyPressEvent` restricted to a printable character key `c`
(priorities 4, 5 and the default fallthrough; the earlier priorities handle
non-character keys only). -/
def keyPressChar (st : EdState) (c : Char) : EdState :=
  if (BRACKETS.lookup c).isSome then typeOpenBracket st c
  else if BRACKETS.any (fun p => p.2 = c) then typeCloseBracket st c
  else insertTextAt st [c]

/-! ## CodeEditor.py: search and replace

`QTextDocument.find` is modelled by its documented semantics: a forward
search begins at the given cursor's position (after the selection if one is
active) and yields the first match as a cursor selecting it.  Without
`FindCaseSensitively` characters compare case-folded (approximated by ASCII
lowercasing); with `FindWholeWords` the match must not be adjacent to a
letter or digit (`QChar::isLetterOrNumber`, ASCII approximation).  The
search proceeds block by block, so a pattern containing a line break never
matches. -/

/-- Case comparison of one character under the `FindCaseSensitively` flag. -/
def charMatch (caseSensitive : Bool) (a b : Char) : Bool :=
  if caseSensitive then a = b else a.toLower = b.toLower

/-- Model of `QChar::isLetterOrNumber` (ASCII approximation), the class Qt's
whole-word check tests adjacency against. -/
def qtWordChar (c : Char) : Bool := c.isAlphanum

/-- The query `q` matches in `t` at index `i` under the given flags. -/
def matchesAt (t q : List Char) (caseSensitive wholeWord : Bool) (i : Nat) : Bool :=
  decide (i + q.length ≤ t.length) &&
  !(q.contains '\n') &&
  (((t.drop i).take q.length).zip q).all (fun p => charMatch caseSensitive p.1 p.2) &&
  (!wholeWord ||
    ((decide (i = 0) || !qtWordChar (qtCharAt t (i - 1))) &&
     (decide (i + q.length = t.length) || !qtWordChar (qtCharAt t (i + q.length)))))

/-- Forward search: the least index `i ≥ start` at which `q` matches, if
any (candidate positions run from `start` to `t.length`). -/
def findFrom (t q : List Char) (caseSensitive wholeWord : Bool) (start : Nat) :
    Option Nat :=
  (List.range' start (t.length + 1 - start)).find?
    (matchesAt t q caseSensitive wholeWord)

/-- Backward search: the greatest index at which `q` matches with the match
lying entirely before `stop`, if any. -/
def findLastBefore (t q : List Char) (caseSensitive wholeWord : Bool) (stop : Nat) :
    Option Nat :=
  ((List.range stop).filter
    (fun i => matchesAt t q caseSensitive wholeWord i && decide (i + q.length ≤ stop))).getLast?

/-- Model of `CodeEditor.find_text`: find from the current cursor.  Empty queries
return `False` at once; otherwise `document().find` runs from the editor
cursor (forward searches resume after an active selection) and on success
the editor cursor selects the match. -/
def find_text (st : EdState) (query : List Char)
    (caseSensitive wholeWord backwards : Bool) : Bool × EdState :=
  if query = [] then (false, st)
  else
    let found :=
      if backwards then
        findLastBefore st.text query caseSensitive wholeWord (min st.anchor st.pos)
      else
        findFrom st.text query caseSensitive wholeWord (max st.anchor st.pos)
    match found with
    | none => (false, st)
    | some i => (true, ⟨st.text, i, i + query.length⟩)

/-- Model of `CodeEditor.replace_current`: with no selection return `False` and leave
the buffer alone; with a selection replace it by `replacement` and return
`True`. -/
def replace_current (st : EdState) (replacement : List Char) : Bool × EdState :=
  if st.hasSel then (true, insertTextAt st replacement)
  else (false, st)

/-- The loop of `CodeEditor.replace_all`: find the next match at or after
`pos`, replace it by `r`, resume just after the inserted replacement (the
editor cursor, collapsed to the end of the replacement by the edit, is where
the next `document().find` starts), and count the replacements.  The fuel
argument only bounds the recursion; `replace_all` supplies `doc.length + 1`,
which `replace_all_eq_spec` shows is never exhausted. -/
def replaceLoop (q r : List Char) (caseSensitive wholeWord : Bool) :
    Nat → List Char → Nat → List Char × Nat
  | 0, t, _ => (t, 0)
  | fuel + 1, t, pos =>
    match findFrom t q caseSensitive wholeWord pos with
    | none => (t, 0)
    | some i =>
      let res := replaceLoop q r caseSensitive wholeWord fuel
        (t.take i ++ r ++ t.drop (i + q.length)) (i + r.length)
      (res.1, res.2 + 1)

/-- Model of `CodeEditor.replace_all`: empty queries perform no work and report `0`;
otherwise every match is replaced starting from the document start, inside a
single `beginEditBlock`/`endEditBlock` undo transaction (modelled as one
atomic transformation of the text).  Returns the new text and the count. -/
def replace_all (doc query replacement : List Char)
    (caseSensitive wholeWord : Bool) : List Char × Nat :=
  if query = [] then (doc, 0)
  else replaceLoop query replacement caseSensitive wholeWord (doc.length + 1) doc 0

/-- Spec-side rendering of the `replaceAll` contract: a single left-to-right
scan over the document that replaces every non-overlapping occurrence of the
query and counts the replacements.  `out` is the already-scanned text (which
replacements never revisit) and `rest` the text still to scan. -/
def scanReplaceAll (q r : List Char) (caseSensitive wholeWord : Bool) :
    (out rest : List Char) → List Char × Nat :=
  fun out rest =>
    if hq : q = [] then (out ++ rest, 0)
    else if hm : matchesAt (out ++ rest) q caseSensitive wholeWord out.length then
      ((scanReplaceAll q r caseSensitive wholeWord (out ++ r) (rest.drop q.length)).1,
        (scanReplaceAll q r caseSensitive wholeWord (out ++ r) (rest.drop q.length)).2 + 1)
    else if hr : rest = [] then (out, 0)
    else scanReplaceAll q r caseSensitive wholeWord (out ++ rest.take 1) (rest.drop 1)
termination_by out rest => rest.length
decreasing_by
  all_goals simp only [List.length_drop]
  all_goals
    first
      | (simp only [matchesAt, Bool.and_eq_true, decide_eq_true_eq,
          List.length_append] at hm
         have hql : 0 < q.length := List.length_pos.mpr hq
         omega)
      | (have hrl : 0 < rest.length := List.length_pos.mpr hr
         omega)

/-- Spec-side `replaceAll`: scan the whole document from the start. -/
def replaceAllSpec (doc query replacement : List Char)
    (caseSensitive wholeWord : Bool) : List Char × Nat :=
  if query = [] then (doc, 0)
  else scanReplaceAll query replacement caseSensitive wholeWord [] doc

/-! ## Calltips.py and main.py: builtin calltips

The Python `builtins` registry and `inspect.signature` are external to the
repository; they are modelled as a lookup returning, per name, whether the
object is callable, its signature string when introspectable (`none` models
`inspect.signature` raising `ValueError`/`TypeError`), and its `__doc__`
(`none` models `None`). -/

structure BuiltinEntry where
  callable : Bool
  sig : Option (List Char)
  doc : Option (List Char)
deriving Repr, DecidableEq

/-- The fallback signature literal of `src/Calltips.py` line 15: the file
holds the five characters `(`, `â` (U+00E2), `€` (U+20AC), `¦` (U+00A6), `)`
— the UTF-8 bytes of an ellipsis mis-decoded as cp1252. -/
def calltipsPlaceholder : List Char :=
  ['(', Char.ofNat 0xE2, Char.ofNat 0x20AC, Char.ofNat 0xA6, ')']

/-- The fallback signature literal of `src/main.py` line 82: a horizontal
ellipsis `…` (U+2026) in parentheses. -/
def mainPlaceholder : List Char := ['(', Char.ofNat 0x2026, ')']

/-- Model of `doc.strip().splitlines()[0] if doc else ""`: `none` models the
`IndexError` raised when `doc` is nonempty but entirely whitespace (then
`doc.strip().splitlines()` is the empty list). -/
def firstDocLine (doc : List Char) : Option (List Char) :=
  if doc = [] then some []
  else (pySplitlines (pyStrip doc)).head?

/-- Model of `Calltips.get_builtin_calltip` — the implementation `CodeEditor`
imports.  `Except.error` models an uncaught `IndexError`; `.ok none` models
returning `None`. -/
def calltips_get_builtin_calltip (registry : List Char → Option BuiltinEntry)
    (name : List Char) : Except Unit (Option (List Char)) :=
  match registry name with
  | none => .ok none
  | some obj =>
    if !obj.callable then .ok none
    else
      let sig := obj.sig.getD calltipsPlaceholder
      let doc := obj.doc.getD []
      match firstDocLine doc with
      | none => .error ()
      | some first =>
        .ok (some (if first ≠ [] then pyStrip (name ++ sig ++ '\n' :: first)
          else pyStrip (name ++ sig)))

/-- Model of `main.get_builtin_calltip` — the duplicate in `src/main.py`, whose
placeholder is the true ellipsis and which always formats through the
newline before stripping. -/
def main_get_builtin_calltip (registry : List Char → Option BuiltinEntry)
    (name : List Char) : Except Unit (Option (List Char)) :=
  match registry name with
  | none => .ok none
  | some obj =>
    if !obj.callable then .ok none
    else
      let sig := obj.sig.getD mainPlaceholder
      let doc := obj.doc.getD []
      match firstDocLine doc with
      | none => .error ()
      | some first => .ok (some (pyStrip (name ++ sig ++ '\n' :: first)))

/-! ## PythonHighlighter.py: the function-definition rule

The rule pattern is `\bdef\s+([a-zA-Z_][a-zA-Z0-9_]*)`, and
`highlightBlock` applies the function format to capture group 1 (the branch
guarded by `pattern().startswith("\\bdef")`, which holds exactly for this
rule) for every match produced by `globalMatch`.  PCRE character classes
without the Unicode option: `\w = [a-zA-Z0-9_]`, `\s` the ASCII whitespace
set. -/

def isAsciiWordChar (c : Char) : Bool := c.isAlphanum || c = '_'

def isIdentStartChar (c : Char) : Bool := c.isAlpha || c = '_'

def isRegexSpace (c : Char) : Bool :=
  c = ' ' || c = '\t' || c = '\n' || c = '\x0b' || c = '\x0c' || c = '\r'

def isWordCharOpt : Option Char → Bool
  | some c => isAsciiWordChar c
  | none => false

/-- Attempt the pattern `\bdef\s+([a-zA-Z_][a-zA-Z0-9_]*)` at offset `i` of
`t`.  On success, return `(full match length, capture-1 start, capture-1
length)`: the word boundary before `d`, the literal `def`, a maximal nonempty
whitespace run, then a maximal identifier (the capture group). -/
def matchDefAt (t : List Char) (i : Nat) : Option (Nat × Nat × Nat) :=
  if i ≠ 0 && isWordCharOpt t[i - 1]? then none
  else if !(['d', 'e', 'f'].isPrefixOf (t.drop i)) then none
  else if ((t.drop (i + 3)).takeWhile isRegexSpace).length = 0 then none
  else
    match t.drop (i + 3 + ((t.drop (i + 3)).takeWhile isRegexSpace).length) with
    | [] => none
    | c :: restChars =>
      if isIdentStartChar c then
        some (3 + ((t.drop (i + 3)).takeWhile isRegexSpace).length +
            (1 + (restChars.takeWhile isAsciiWordChar).length),
          i + 3 + ((t.drop (i + 3)).takeWhile isRegexSpace).length,
          1 + (restChars.takeWhile isAsciiWordChar).length)
      else none

/-- Model of `globalMatch` over one line: non-overlapping matches are collected left
to right, each search resuming at the end of the previous full match; for
each match the highlighted span is capture group 1.  The fuel only bounds
the recursion (`defRuleSpans` supplies enough for the whole line). -/
def defSpansAux (t : List Char) : Nat → Nat → List (Nat × Nat)
  | 0, _ => []
  | fuel + 1, i =>
    if t.length ≤ i then []
    else
      match matchDefAt t i with
      | some (len, s, l) => (s, l) :: defSpansAux t fuel (i + len)
      | none => defSpansAux t fuel (i + 1)

/-- The spans (start, length) that receive the function style on line `t`. -/
def defRuleSpans (t : List Char) : List (Nat × Nat) :=
  defSpansAux t (t.length + 1) 0

/-! ## CodeEditor.py: font size operations -/

/-- Model of `CodeEditor.set_font_size`: clamp to `[6, 72]` and apply (the
early-return when the size is unchanged returns the same value). -/
def set_font_size (size current : Int) : Int :=
  let s := max 6 (min 72 size)
  if current = s then current else s

/-- Model of `CodeEditor.adjust_font_size`: delegate to `set_font_size`. -/
def adjust_font_size (delta current : Int) : Int :=
  set_font_size (current + delta) current

/-- Model of `_default_font_size` captured in `__init__` from `QFont("Consolas", 11)`:
`pointSize()` is `11`. -/
def DEFAULT_FONT_SIZE : Int := 11

/-- Model of `CodeEditor.reset_font_size`: delegate to `set_font_size` with the
captured default. -/
def reset_font_size (current : Int) : Int :=
  set_font_size DEFAULT_FONT_SIZE current

/-- A concrete registry fragment modelling CPython's `builtins` entry for
`range`: callable, no introspectable signature (`inspect.signature(range)`
raises `ValueError`), and the leading docstring line. -/
def demoRegistry : List Char → Option BuiltinEntry := fun n =>
  if n = "range".toList then
    some ⟨true, none, some ("range(stop) -> range object".toList)⟩
  else none

/-! ## Helper lemmas -/

theorem mem_range'_iff (m s n : Nat) : m ∈ List.range' s n ↔ s ≤ m ∧ m < s + n := by
  rw [List.mem_range']
  constructor
  · rintro ⟨i, hi, rfl⟩
    omega
  · rintro ⟨h1, h2⟩
    exact ⟨m - s, by omega, by omega⟩

theorem matchesAt_le {t q : List Char} {cs ww : Bool} {i : Nat}
    (h : matchesAt t q cs ww i = true) : i + q.length ≤ t.length := by
  simp only [matchesAt, Bool.and_eq_true, decide_eq_true_eq] at h
  exact h.1.1.1

theorem matchesAt_false_of_short {t q : List Char} {cs ww : Bool} {i : Nat}
    (h : t.length < i + q.length) : matchesAt t q cs ww i = false := by
  cases hm : matchesAt t q cs ww i with
  | false => rfl
  | true => exact absurd (matchesAt_le hm) (by omega)

theorem findFrom_of_matches {t q : List Char} {cs ww : Bool} {i : Nat}
    (h : matchesAt t q cs ww i = true) : findFrom t q cs ww i = some i := by
  unfold findFrom
  have hle : i ≤ t.length := le_trans (Nat.le_add_right i q.length) (matchesAt_le h)
  rw [show t.length + 1 - i = (t.length - i) + 1 by omega, List.range'_succ]
  exact List.find?_cons_of_pos _ h

theorem findFrom_step {t q : List Char} {cs ww : Bool} {i : Nat}
    (h : matchesAt t q cs ww i = false) :
    findFrom t q cs ww i = findFrom t q cs ww (i + 1) := by
  unfold findFrom
  rcases le_or_lt i t.length with hle | hlt
  · rw [show t.length + 1 - i = (t.length - i) + 1 by omega,
      show t.length + 1 - (i + 1) = t.length - i by omega,
      List.range'_succ, List.find?_cons_of_neg _ (by simp [h])]
  · rw [show t.length + 1 - i = 0 by omega, show t.length + 1 - (i + 1) = 0 by omega]
    simp

theorem findFrom_none_of_big {t q : List Char} {cs ww : Bool} {i : Nat}
    (h : t.length < i + q.length) : findFrom t q cs ww i = none := by
  unfold findFrom
  apply List.find?_eq_none.mpr
  intro x hx hc
  rw [mem_range'_iff] at hx
  have := matchesAt_le hc
  omega

theorem startsWith_decomp {u line : List Char} (h : u.isPrefixOf line) :
    line = u ++ line.drop u.length ∧ u.length ≤ line.length := by
  induction u generalizing line with
  | nil => simp
  | cons a u2 ih =>
    cases line with
    | nil => simp [List.isPrefixOf] at h
    | cons b line2 =>
      simp only [List.isPrefixOf, Bool.and_eq_true, beq_iff_eq] at h
      obtain ⟨rfl, h2⟩ := h
      obtain ⟨hd, hl⟩ := ih h2
      refine ⟨?_, by simp only [List.length_cons]; omega⟩
      simp only [List.length_cons, List.drop_succ_cons, List.cons_append]
      rw [← hd]

theorem takeWhile_length_eq {p : List Char} :
    p.length - (p.dropWhile (fun c => c = ' ')).length =
      (p.takeWhile (fun c => c = ' ')).length := by
  have h := congrArg List.length
    (List.takeWhile_append_dropWhile (fun c => c = ' ') p)
  simp only [List.length_append] at h
  omega

/-! ## Claim theorems -/

/-- Claim C3: `compute_newline_with_indentation p u` is a line break
followed by exactly `leadingSpaces p` spaces (only literal leading space
characters of `p` count, tabs do not), plus one extra copy of `u` exactly
when the trailing-whitespace-stripped prefix ends with a colon; an empty
prefix yields just the line break. -/
theorem compute_newline_spec (p u : List Char) :
    compute_newline_with_indentation p u =
      '\n' :: (List.replicate (leadingSpaces p) ' ' ++
        (if endsWithColon (pyRstrip p) then u else [])) ∧
    compute_newline_with_indentation [] u = ['\n'] := by
  constructor
  · simp only [compute_newline_with_indentation, pyLstripSpaces, leadingSpaces,
      takeWhile_length_eq]
  · simp [compute_newline_with_indentation, pyLstripSpaces, pyRstrip,
      endsWithColon]

/-- Claim C4: `unindent_line` removes exactly one `indentUnit`-length copy
from the front when the line starts with the unit, is the identity
otherwise (hence idempotent on non-matching input), and never removes more
than one unit's worth of characters. -/
theorem unindent_line_spec (line u : List Char) :
    (u.isPrefixOf line → unindent_line line u = line.drop u.length ∧
      line = u ++ unindent_line line u) ∧
    (¬ u.isPrefixOf line → unindent_line line u = line) ∧
    (¬ u.isPrefixOf line →
      unindent_line (unindent_line line u) u = unindent_line line u) ∧
    line.length ≤ (unindent_line line u).length + u.length := by
  refine ⟨?_, ?_, ?_, ?_⟩
  · intro h
    refine ⟨by simp [unindent_line, h], ?_⟩
    rw [unindent_line, if_pos h]
    exact (startsWith_decomp h).1
  · intro h
    simp [unindent_line, h]
  · intro h
    simp [unindent_line, h]
  · by_cases h : u.isPrefixOf line
    · have hlen : u.length ≤ line.length := (startsWith_decomp h).2
      simp only [unindent_line, if_pos h, List.length_drop]
      omega
    · simp only [unindent_line, if_neg h]
      omega

/-- Claim C4 witness: the spec's own examples, via `unindent_line_spec` at
the concrete inputs. -/
theorem unindent_line_spec_witness :
    unindent_line ("    x = 1".toList) DEFAULT_INDENT = "x = 1".toList ∧
    unindent_line ("x = 1".toList) DEFAULT_INDENT = "x = 1".toList := by
  constructor
  · have h := (unindent_line_spec ("    x = 1".toList) DEFAULT_INDENT).1 (by decide)
    rw [h.1]
    decide
  · exact (unindent_line_spec ("x = 1".toList) DEFAULT_INDENT).2.1 (by decide)

/-- Claim C7: searching or replacing with an empty query is a no-op: no
match is reported, nothing moves, nothing is mutated, and no exception can
arise (the model functions are total). -/
theorem empty_query_spec (st : EdState) (doc r : List Char) (cs ww bw : Bool) :
    find_text st [] cs ww bw = (false, st) ∧
    replace_all doc [] r cs ww = (doc, 0) := by
  constructor
  · simp [find_text]
  · simp [replace_all]

/-- Claim C8: `replace_current` with no active selection reports `false`
and leaves the buffer untouched; with a selection it replaces the selected
range by the replacement (so in particular whenever the selection holds an
active match) and reports `true`. -/
theorem replace_current_spec (st : EdState) (r : List Char) :
    (st.anchor = st.pos → replace_current st r = (false, st)) ∧
    (st.anchor ≠ st.pos →
      (replace_current st r).1 = true ∧
      (replace_current st r).2 =
        ⟨st.text.take (min st.anchor st.pos) ++ r ++
          st.text.drop (max st.anchor st.pos),
          min st.anchor st.pos + r.length, min st.anchor st.pos + r.length⟩) := by
  constructor
  · intro h
    simp [replace_current, EdState.hasSel, h]
  · intro h
    simp [replace_current, EdState.hasSel, h, insertTextAt]

/-- Claim C8 witness: replacing the selected match `ab` of `abc` by `XY`
applies and reports `true`, via `replace_current_spec`. -/
theorem replace_current_spec_witness :
    (replace_current ⟨"abc".toList, 0, 2⟩ ("XY".toList)).1 = true ∧
    (replace_current ⟨"abc".toList, 0, 2⟩ ("XY".toList)).2.text = "XYc".toList := by
  have h := (replace_current_spec ⟨"abc".toList, 0, 2⟩ ("XY".toList)).2 (by decide)
  refine ⟨h.1, ?_⟩
  rw [h.2]
  decide

/-- Claim C10: every font-size operation clamps through `set_font_size`,
whose result is `min 72 (max 6 s)`, so after any `set_font_size`,
`adjust_font_size` or `reset_font_size` call the point size lies between 6
and 72 inclusive. -/
theorem font_size_spec (s d current : Int) :
    set_font_size s current = min 72 (max 6 s) ∧
    6 ≤ set_font_size s current ∧ set_font_size s current ≤ 72 ∧
    adjust_font_size d current = set_font_size (current + d) current ∧
    6 ≤ adjust_font_size d current ∧ adjust_font_size d current ≤ 72 ∧
    reset_font_size current = set_font_size DEFAULT_FONT_SIZE current ∧
    6 ≤ reset_font_size current ∧ reset_font_size current ≤ 72 := by
  have key : ∀ x y : Int, set_font_size x y = min 72 (max 6 x) := by
    intro x y
    simp only [set_font_size, Int.max_def, Int.min_def]
    split_ifs <;> omega
  have bounds : ∀ x y : Int, 6 ≤ set_font_size x y ∧ set_font_size x y ≤ 72 := by
    intro x y
    rw [key]
    constructor
    · simp only [Int.max_def, Int.min_def]
      split_ifs <;> omega
    · simp only [Int.max_def, Int.min_def]
      split_ifs <;> omega
  exact ⟨key s current, (bounds s current).1, (bounds s current).2,
    rfl, (bounds (current + d) current).1, (bounds (current + d) current).2,
    rfl, (bounds DEFAULT_FONT_SIZE current).1, (bounds DEFAULT_FONT_SIZE current).2⟩

/-- Claim C2 (code bug): with document `")"`, no selection and the cursor at
the end (position 1), no character follows the cursor, so the claim mandates
a normal insertion yielding `"))"` with the cursor at 2.  The code instead
consumes the keystroke unchanged: after the failed `NextCharacter` move,
`characterAt(position - 1)` reads the character *before* the cursor, which
equals the typed `)`, so the skip branch runs and its own `NextCharacter`
also fails — the typed character is lost. -/
theorem close_bracket_dropped_at_end :
    keyPressChar ⟨[')'], 1, 1⟩ ')' = ⟨[')'], 1, 1⟩ ∧
    keyPressChar ⟨[')'], 1, 1⟩ ')' ≠ ⟨[')', ')'], 2, 2⟩ ∧
    (1 : Nat) = ([')'] : List Char).length := by
  decide

/-- Claim C6 (code bug): for a registered callable with no introspectable
signature, `Calltips.get_builtin_calltip` — the implementation `CodeEditor`
imports — substitutes the five-character mojibake placeholder of its
corrupted source literal (`(` `â` `€` `¦` `)`), not the claimed
ellipsis-in-parens `(…)`; the duplicate in `main.py` produces the claimed
placeholder. -/
theorem calltip_placeholder_mojibake :
    calltips_get_builtin_calltip demoRegistry ("range".toList) =
      .ok (some ("range".toList ++ calltipsPlaceholder ++
        '\n' :: "range(stop) -> range object".toList)) ∧
    main_get_builtin_calltip demoRegistry ("range".toList) =
      .ok (some ("range".toList ++ mainPlaceholder ++
        '\n' :: "range(stop) -> range object".toList)) ∧
    calltipsPlaceholder ≠ mainPlaceholder :=
  ⟨rfl, rfl, by decide⟩

/-- Claim C1: from any buffer with no selection and the cursor at `p`,
typing `(` inserts the pair `()` leaving the cursor between them, and then
typing `)` skips over the existing closer without inserting a duplicate:
the net text is the original with exactly `()` inserted at `p`, the cursor
ends after the pair, and no typed character is duplicated or lost (the text
grows by exactly two characters for the two keystrokes). -/
theorem typeCloseBracket_skip (st : EdState) (c : Char)
    (h1 : st.anchor = st.pos) (h2 : st.pos < st.text.length)
    (h3 : qtCharAt st.text st.pos = c) :
    typeCloseBracket st c = ⟨st.text, st.pos + 1, st.pos + 1⟩ := by
  simp [typeCloseBracket, EdState.hasSel, h1, h2, h3]

theorem bracket_pair_spec (t : List Char) (p : Nat) (hp : p ≤ t.length) :
    keyPressChar ⟨t, p, p⟩ '(' =
      ⟨t.take p ++ '(' :: ')' :: t.drop p, p + 1, p + 1⟩ ∧
    keyPressChar (keyPressChar ⟨t, p, p⟩ '(') ')' =
      ⟨t.take p ++ '(' :: ')' :: t.drop p, p + 2, p + 2⟩ ∧
    (t.take p ++ '(' :: ')' :: t.drop p).length = t.length + 2 := by
  have hl : (t.take p).length = p := by
    rw [List.length_take]
    omega
  have hTlen : (t.take p ++ '(' :: ')' :: t.drop p).length = t.length + 2 := by
    simp only [List.length_append, List.length_cons, List.length_drop, hl]
    omega
  have hopen : keyPressChar ⟨t, p, p⟩ '(' =
      ⟨t.take p ++ '(' :: ')' :: t.drop p, p + 1, p + 1⟩ := by
    show typeOpenBracket ⟨t, p, p⟩ '(' = _
    simp only [typeOpenBracket, show BRACKETS.lookup '(' = some ')' from rfl,
      insertTextAt, min_self, max_self, List.length_singleton]
    have h1 : (t.take p ++ ['('] ++ t.drop p).take (p + 1) = t.take p ++ ['('] := by
      rw [show p + 1 = (t.take p).length + 1 by omega, List.append_assoc,
        List.take_append]
      simp
    have h2 : (t.take p ++ ['('] ++ t.drop p).drop (p + 1) = t.drop p := by
      rw [show p + 1 = (t.take p).length + 1 by omega, List.append_assoc,
        List.drop_append]
      simp
    rw [h1, h2]
    simp
  refine ⟨hopen, ?_, hTlen⟩
  rw [hopen]
  show typeCloseBracket ⟨t.take p ++ '(' :: ')' :: t.drop p, p + 1, p + 1⟩ ')' = _
  have hget : (t.take p ++ '(' :: ')' :: t.drop p)[p + 1]? = some ')' := by
    rw [List.getElem?_append_right (by omega)]
    simp [hl]
  have hchar : qtCharAt (t.take p ++ '(' :: ')' :: t.drop p) (p + 1) = ')' := by
    unfold qtCharAt
    rw [hget]
    rfl
  have hstep := typeCloseBracket_skip
    ⟨t.take p ++ '(' :: ')' :: t.drop p, p + 1, p + 1⟩ ')' rfl
    (by show p + 1 < (t.take p ++ '(' :: ')' :: t.drop p).length
        rw [hTlen]
        omega)
    hchar
  rw [show p + 2 = p + 1 + 1 by omega]
  exact hstep

theorem matchDefAt_inv {t : List Char} {i len s l : Nat}
    (h : matchDefAt t i = some (len, s, l)) :
    ['d', 'e', 'f'].isPrefixOf (t.drop i) ∧ i + 4 ≤ s ∧ 1 ≤ l := by
  unfold matchDefAt at h
  split at h
  · exact absurd h (by simp)
  · split at h
    · exact absurd h (by simp)
    · rename_i hb hdef
      split at h
      · exact absurd h (by simp)
      · rename_i hws
        split at h
        · exact absurd h (by simp)
        · split at h
          · rename_i hid
            injection h with h1
            injection h1 with hlen h2
            injection h2 with hs hl
            refine ⟨by simpa using hdef, ?_, by omega⟩
            omega
          · exact absurd h (by simp)

theorem defSpansAux_mem {t : List Char} :
    ∀ (fuel i s l : Nat), (s, l) ∈ defSpansAux t fuel i →
      ∃ j len, matchDefAt t j = some (len, s, l) := by
  intro fuel
  induction fuel with
  | zero =>
    intro i s l h
    simp [defSpansAux] at h
  | succ n ih =>
    intro i s l h
    by_cases hle : t.length ≤ i
    · simp [defSpansAux, hle] at h
    · rcases hm : matchDefAt t i with _ | ⟨len, s2, l2⟩
      · rw [defSpansAux, if_neg hle, hm] at h
        exact ih (i + 1) s l h
      · rw [defSpansAux, if_neg hle, hm] at h
        rcases List.mem_cons.mp h with heq | htail
        · cases heq
          exact ⟨i, len, hm⟩
        · exact ih (i + len) s l htail

/-- Claim C9: the function-definition rule styles exactly the capture group
(the identifier after `def`) — on `def add(a, b):` only the range of `add`
(start 4, length 3) — and in general every styled span arises from a match
whose capture begins at least four positions past the start of the `def`
keyword, so the span never overlaps the keyword `def` itself (which
occupies three characters from the match start). -/
theorem def_rule_spec :
    defRuleSpans ("def add(a, b):".toList) = [(4, 3)] ∧
    (∀ (t : List Char) (s l : Nat), (s, l) ∈ defRuleSpans t →
      ∃ i len, matchDefAt t i = some (len, s, l) ∧ i + 4 ≤ s ∧ 1 ≤ l ∧
        ['d', 'e', 'f'].isPrefixOf (t.drop i)) := by
  refine ⟨by decide, ?_⟩
  intro t s l h
  obtain ⟨j, len, hm⟩ := defSpansAux_mem (t.length + 1) 0 s l h
  have hi := matchDefAt_inv hm
  exact ⟨j, len, hm, hi.2.1, hi.2.2, hi.1⟩

/-- Claim C9 witness: the single span on `def add(a, b):` is a capture
group behind a `def` keyword, via `def_rule_spec` at the concrete line. -/
theorem def_rule_spec_witness :
    ∃ i len, matchDefAt ("def add(a, b):".toList) i = some (len, 4, 3) ∧
      i + 4 ≤ 4 ∧ 1 ≤ 3 ∧
      ['d', 'e', 'f'].isPrefixOf (("def add(a, b):".toList).drop i) :=
  def_rule_spec.2 ("def add(a, b):".toList) 4 3 (by decide)

/-- Claim C1 witness: on the buffer `ab` with the cursor at 1, the
composition yields `a()b` with the cursor after the pair, via
`bracket_pair_spec` at the concrete input. -/
theorem bracket_pair_spec_witness :
    keyPressChar (keyPressChar ⟨"ab".toList, 1, 1⟩ '(') ')' =
      ⟨"a()b".toList, 3, 3⟩ := by
  have h := (bracket_pair_spec ("ab".toList) 1 (by decide)).2.1
  rw [h]
  decide

theorem replaceLoop_pos_congr (q r : List Char) (cs ww : Bool) (fuel : Nat)
    (t : List Char) (p1 p2 : Nat)
    (hf : findFrom t q cs ww p1 = findFrom t q cs ww p2) :
    replaceLoop q r cs ww fuel t p1 = replaceLoop q r cs ww fuel t p2 := by
  cases fuel with
  | zero => rfl
  | succ n => simp only [replaceLoop, hf]

theorem scan_unfold_match (q r : List Char) (cs ww : Bool) (out rest : List Char)
    (hq : q ≠ []) (hm : matchesAt (out ++ rest) q cs ww out.length = true) :
    scanReplaceAll q r cs ww out rest =
      ((scanReplaceAll q r cs ww (out ++ r) (rest.drop q.length)).1,
        (scanReplaceAll q r cs ww (out ++ r) (rest.drop q.length)).2 + 1) := by
  rw [scanReplaceAll.eq_def, dif_neg hq, dif_pos hm]

theorem scan_unfold_nil (q r : List Char) (cs ww : Bool) (out : List Char)
    (hq : q ≠ []) (hm : matchesAt (out ++ []) q cs ww out.length = false) :
    scanReplaceAll q r cs ww out [] = (out, 0) := by
  rw [scanReplaceAll.eq_def, dif_neg hq, dif_neg (by rw [hm]; simp),
    dif_pos rfl]

theorem scan_unfold_cons (q r : List Char) (cs ww : Bool) (out rest2 : List Char)
    (c : Char) (hq : q ≠ [])
    (hm : matchesAt (out ++ c :: rest2) q cs ww out.length = false) :
    scanReplaceAll q r cs ww out (c :: rest2) =
      scanReplaceAll q r cs ww (out ++ [c]) rest2 := by
  rw [scanReplaceAll.eq_def, dif_neg hq, dif_neg (by rw [hm]; simp),
    dif_neg (List.cons_ne_nil c rest2)]
  rfl

theorem replaceLoop_scan_nil (q r : List Char) (cs ww : Bool) (hq : q ≠ [])
    (out : List Char) (f : Nat) :
    replaceLoop q r cs ww (f + 1) (out ++ []) out.length =
      scanReplaceAll q r cs ww out [] := by
  have hqlen : 0 < q.length := List.length_pos.mpr hq
  have hm : matchesAt (out ++ []) q cs ww out.length = false :=
    matchesAt_false_of_short (by simp only [List.append_nil]; omega)
  rw [scan_unfold_nil q r cs ww out hq hm, List.append_nil]
  have hnone : findFrom out q cs ww out.length = none :=
    findFrom_none_of_big (by omega)
  simp only [replaceLoop, hnone]

/-- The `replace_all` loop of the source (repeated `document().find` from
the position after the previous replacement) computes the same result as
the spec-side single left-to-right scan. -/
theorem replaceLoop_eq_scan (q r : List Char) (cs ww : Bool) (hq : q ≠ []) :
    ∀ (n : Nat) (rest out : List Char) (fuel : Nat),
      rest.length ≤ n → rest.length < fuel →
      replaceLoop q r cs ww fuel (out ++ rest) out.length =
        scanReplaceAll q r cs ww out rest := by
  have hqlen : 0 < q.length := List.length_pos.mpr hq
  intro n
  induction n with
  | zero =>
    intro rest out fuel h1 h2
    obtain rfl : rest = [] := List.length_eq_zero.mp (Nat.le_zero.mp h1)
    obtain ⟨f, rfl⟩ : ∃ f, fuel = f + 1 := ⟨fuel - 1, by omega⟩
    exact replaceLoop_scan_nil q r cs ww hq out f
  | succ n ih =>
    intro rest out fuel h1 h2
    by_cases hm : matchesAt (out ++ rest) q cs ww out.length = true
    · obtain ⟨f, rfl⟩ : ∃ f, fuel = f + 1 := ⟨fuel - 1, by omega⟩
      have hfind := findFrom_of_matches hm
      have hrlen : q.length ≤ rest.length := by
        have := matchesAt_le hm
        simp only [List.length_append] at this
        omega
      simp only [replaceLoop, hfind]
      have ht2 : (out ++ rest).take out.length ++ r ++
          (out ++ rest).drop (out.length + q.length) =
          (out ++ r) ++ rest.drop q.length := by
        rw [List.take_left, List.drop_append]
      rw [ht2, show out.length + r.length = (out ++ r).length by simp]
      rw [ih (rest.drop q.length) (out ++ r) f
        (by simp only [List.length_drop]; omega)
        (by simp only [List.length_drop]; omega)]
      rw [scan_unfold_match q r cs ww out rest hq hm]
    · have hm2 : matchesAt (out ++ rest) q cs ww out.length = false :=
        Bool.eq_false_iff.mpr hm
      cases rest with
      | nil =>
        obtain ⟨f, rfl⟩ : ∃ f, fuel = f + 1 := ⟨fuel - 1, by omega⟩
        exact replaceLoop_scan_nil q r cs ww hq out f
      | cons c rest2 =>
        have hstep := @findFrom_step (out ++ c :: rest2) q cs ww out.length hm2
        rw [replaceLoop_pos_congr q r cs ww fuel (out ++ c :: rest2)
          out.length (out.length + 1) hstep]
        rw [show out ++ c :: rest2 = (out ++ [c]) ++ rest2 by simp,
          show out.length + 1 = (out ++ [c]).length by simp]
        rw [ih rest2 (out ++ [c]) fuel
          (by simp only [List.length_cons] at h1; omega)
          (by simp only [List.length_cons] at h2; omega)]
        rw [scan_unfold_cons q r cs ww out rest2 c hq hm2]

/-- Claim C5: for every non-empty query, `replace_all` — which repeatedly
finds from the document start and replaces each match, resuming after the
inserted replacement, inside one undo transaction (modelled as one atomic
transformation) — equals the spec-side single scan `replaceAllSpec` that
replaces every non-overlapping occurrence satisfying the flags and counts
the replacements; and on `"Foo foo FOO"`, case-insensitive whole-word-off
`replace_all` of `foo` by `bar` returns 3 and yields `"bar bar bar"`. -/
theorem replace_all_spec (doc q r : List Char) (cs ww : Bool) (hq : q ≠ []) :
    replace_all doc q r cs ww = replaceAllSpec doc q r cs ww ∧
    replace_all ("Foo foo FOO".toList) ("foo".toList) ("bar".toList)
      false false = ("bar bar bar".toList, 3) := by
  refine ⟨?_, by decide⟩
  unfold replace_all replaceAllSpec
  rw [if_neg hq, if_neg hq]
  have h := replaceLoop_eq_scan q r cs ww hq doc.length doc [] (doc.length + 1)
    le_rfl (by omega)
  simpa using h

/-- Claim C5 witness: `replace_all` agrees with the scanning specification
at the spec's own example, via `replace_all_spec` at the concrete input. -/
theorem replace_all_spec_witness :
    replace_all ("Foo foo FOO".toList) ("foo".toList) ("bar".toList)
      false false =
    replaceAllSpec ("Foo foo FOO".toList) ("foo".toList) ("bar".toList)
      false false :=
  (replace_all_spec ("Foo foo FOO".toList) ("foo".toList) ("bar".toList)
    false false (by decide)).1

end SyntaxPad
